import Mathlib

/-!
Verification of the enjarify driver (`enjarify/main.py`).

The driver's own logic — the per-class loop of `translate`, the per-image
loop of `main`, the duplicate-name check, the error collection, the
configuration selector and the jar-writing loop — is embedded directly
from the source.  The components the driver calls but whose code is not
part of this file set (`parsedex.DexFile`, `mutf8.decode`,
`jvm.writeclass.toClassFile`) are treated as an abstract environment of
pure functions, with Python exceptions modelled as `Except.error` values.
`collections.OrderedDict` is modelled as an insertion-ordered association
list.  `print` calls are I/O with no effect on the returned mappings and
are not modelled.
-/

set_option autoImplicit false

namespace Enjarify

/-- Byte strings are lists of byte values. -/
abbrev Bytes := List Nat

/-- Insertion-ordered mapping from unicode names to values, modelling
`collections.OrderedDict`: entries are appended at the end in insertion
order and lookup returns the first (unique) matching key. -/
abbrev AList (α : Type) := List (String × α)

/-- Keys of an ordered mapping, in insertion order. -/
def keys {α : Type} (m : AList α) : List String := m.map Prod.fst

/-- Membership test `name in mapping` of the source. -/
def hasKey {α : Type} (m : AList α) (k : String) : Bool :=
  m.any (fun p => p.1 == k)

/-- Lookup `mapping[name]`: the first entry with the given key. -/
def getVal {α : Type} : AList α → String → Option α
  | [], _ => none
  | (a, v) :: t, k => if a == k then some v else getVal t k

/-- A class definition as exposed by the parsed dex model: `cls.name` is
the raw (modified-UTF-8) name bytes; the rest of the class is abstract
payload consumed only by `toClassFile`. -/
structure ClassDef where
  name : Bytes
  body : Bytes
deriving DecidableEq, Repr

/-- A parsed dex image: `dex.classes` is the sequence of class
definitions in declaration order. -/
structure DexFile where
  classes : List ClassDef
deriving DecidableEq, Repr

/-- The two option records `options.NONE` and `options.PRETTY` of
`jvm.optimization.options`. -/
inductive Options where
  | NONE
  | PRETTY
deriving DecidableEq, Repr

/-- The external components invoked by `main.py`, as pure functions.
`parseDex` models `parsedex.DexFile(data)` (an exception at the image
level becomes `Except.error`); `decode` models the modified-UTF-8 decoder
`mutf8.decode`; `toClassFile` models `jvm.writeclass.toClassFile(cls, opts)`
(a per-class exception becomes `Except.error` carrying the traceback
text). -/
structure Env where
  parseDex : Bytes → Except String DexFile
  decode : Bytes → String
  toClassFile : ClassDef → Options → Except String Bytes

/-- The decoded output key of a class: `decode(cls.name) + '.class'`
(main.py line 32). -/
def decodedName (env : Env) (cls : ClassDef) : String :=
  env.decode cls.name ++ ".class"

/-- One iteration of the `for cls in dex.classes` loop of `translate`
(main.py lines 31-43): compute the decoded name, skip it with a warning
when it is already present in either mapping, otherwise attempt
`toClassFile` and record the result in exactly one of the two mappings. -/
def translateStep (env : Env) (opts : Options)
    (acc : AList Bytes × AList String) (cls : ClassDef) :
    AList Bytes × AList String :=
  let unicodeName := decodedName env cls
  if hasKey acc.1 unicodeName || hasKey acc.2 unicodeName then
    acc
  else
    match env.toClassFile cls opts with
    | Except.ok classData => (acc.1 ++ [(unicodeName, classData)], acc.2)
    | Except.error e => (acc.1, acc.2 ++ [(unicodeName, e)])

/-- The whole per-class loop of `translate`, processing the classes in
dex declaration order. -/
def processAll (env : Env) (opts : Options) :
    List ClassDef → AList Bytes × AList String → AList Bytes × AList String
  | [], acc => acc
  | cls :: rest, acc => processAll env opts rest (translateStep env opts acc cls)

/-- `translate(data, opts, classes, errors)` (main.py lines 26-45) with
the two mappings passed explicitly.  `parsedex.DexFile(data)` is called
outside any try block, so an image-level failure propagates out of
`translate` as `Except.error`; otherwise the per-class loop runs and the
(extended) mappings are returned. -/
def translate (env : Env) (opts : Options) (data : Bytes)
    (classes : AList Bytes) (errors : AList String) :
    Except String (AList Bytes × AList String) :=
  match env.parseDex data with
  | Except.error e => Except.error e
  | Except.ok dex => Except.ok (processAll env opts dex.classes (classes, errors))

/-- `translate(data, opts)` with the defaulted arguments `classes=None,
errors=None`: fresh empty ordered mappings are created. -/
def translateFresh (env : Env) (opts : Options) (data : Bytes) :
    Except String (AList Bytes × AList String) :=
  translate env opts data [] []

/-- The per-image loop of `main` (main.py lines 90-94): each image is
translated into the same shared `classes`/`errors` mappings, and no
exception handler surrounds the loop, so an image-level failure aborts
the remaining iterations. -/
def translateAll (env : Env) (opts : Options) :
    List Bytes → AList Bytes → AList String →
    Except String (AList Bytes × AList String)
  | [], classes, errors => Except.ok (classes, errors)
  | data :: rest, classes, errors =>
    match translate env opts data classes errors with
    | Except.error e => Except.error e
    | Except.ok acc => translateAll env opts rest acc.1 acc.2

/-- The configuration selector of `main` (main.py line 89):
`opts = options.NONE if args.fast else options.PRETTY`, where
`args.fast` is a `store_true` flag defaulting to false. -/
def selectOpts (fast : Bool) : Options :=
  if fast then Options.NONE else Options.PRETTY

/-- Modelled from the spec: the optimization pipeline (spec section 4.5,
implemented in `jvm.optimization`, not part of this file set) has two
configurations — `PRETTY` additionally runs the optimization passes and
`NONE` skips them. -/
def runsOptimizationPipeline : Options → Bool
  | Options.NONE => false
  | Options.PRETTY => true

/-- The compression choice per entry in `writeToJar` (main.py line 50):
deflate only files larger than 10000 bytes. -/
inductive CompressType where
  | deflated
  | stored
deriving DecidableEq, Repr

/-- `compress_type = ZIP_DEFLATED if len(data) > 10000 else ZIP_STORED`. -/
def compressTypeFor (data : Bytes) : CompressType :=
  if data.length > 10000 then CompressType.deflated else CompressType.stored

/-- The entry sequence `writeToJar` (main.py lines 47-52) writes into the
archive: one entry per mapping item, in mapping order, with the
size-dependent compression choice.  The byte-level zip serialization is
performed by the external `zipfile` module and is a pure function of this
entry sequence (fixed `ZipInfo` metadata). -/
def writeToJarEntries (classes : AList Bytes) :
    List (String × CompressType × Bytes) :=
  classes.map (fun p => (p.1, compressTypeFor p.2, p.2))

/-- The successfully translated entries a run of the loop appends, in
declaration order: one entry per class whose `toClassFile` succeeds. -/
def successEntries (env : Env) (opts : Options) (cs : List ClassDef) :
    AList Bytes :=
  cs.filterMap (fun c =>
    match env.toClassFile c opts with
    | Except.ok d => some (decodedName env c, d)
    | Except.error _ => none)

/-- The failed entries a run of the loop appends, in declaration order:
one entry per class whose `toClassFile` fails, carrying the failure
detail. -/
def errorEntries (env : Env) (opts : Options) (cs : List ClassDef) :
    AList String :=
  cs.filterMap (fun c =>
    match env.toClassFile c opts with
    | Except.ok _ => none
    | Except.error e => some (decodedName env c, e))

/-- Boolean test that an `Except` value is a failure. -/
def isErrorB {ε α : Type} : Except ε α → Bool
  | Except.ok _ => false
  | Except.error _ => true

/-- The success and error mappings have disjoint key sets. -/
def disjointKeys {α β : Type} (classes : AList α) (errors : AList β) : Prop :=
  ∀ k, hasKey classes k = true → hasKey errors k = false

section ConcreteEnvironments

/-- A concrete three-class dex model used to exercise the driver: class
`A` translates, class `B` is corrupted (its `toClassFile` fails), class
`C` translates. -/
def dexW : DexFile :=
  ⟨[⟨[65], [1]⟩, ⟨[66], [9]⟩, ⟨[67], [2]⟩]⟩

/-- A concrete modified-UTF-8 decoder on the name bytes used by `dexW`. -/
def decodeW (bs : Bytes) : String :=
  if bs = [65] then "A" else if bs = [66] then "B" else if bs = [67] then "C" else "X"

/-- A concrete per-class translator: a class whose body is `[9]` is
corrupted and raises, every other class emits its body. -/
def toClassFileW (cls : ClassDef) (_ : Options) : Except String Bytes :=
  if cls.body = [9] then Except.error "corrupt class" else Except.ok cls.body

/-- A concrete image parser: the image `[9]` is structurally malformed
and raises at the header level; every other image parses to `dexW`. -/
def parseDexW (data : Bytes) : Except String DexFile :=
  if data = [9] then Except.error "bad magic" else Except.ok dexW

/-- A concrete environment for the driver. -/
def envW : Env :=
  { parseDex := parseDexW, decode := decodeW, toClassFile := toClassFileW }

/-- The environment `envW` with a different decoder (constant `"B"`),
the image parser and the per-class translator unchanged. -/
def envConstDecode : Env :=
  { parseDex := parseDexW, decode := fun _ => "B", toClassFile := toClassFileW }

/-- The environment `envW` with a decoder that agrees with `decodeW` on
every class-name byte string of `dexW` but differs elsewhere. -/
def envAgreeOnNames : Env :=
  { parseDex := parseDexW
    decode := fun bs =>
      if bs = [65] then "A" else if bs = [66] then "B" else if bs = [67] then "C" else "Z"
    toClassFile := toClassFileW }

/-- The success mapping produced by translating `dexW` fresh. -/
def csW : AList Bytes := [("A.class", [1]), ("C.class", [2])]

/-- The error mapping produced by translating `dexW` fresh. -/
def esW : AList String := [("B.class", "corrupt class")]

/-- A pre-populated success mapping with a stale entry under `A.class`,
used to observe the first-wins policy. -/
def csPre : AList Bytes := [("A.class", [7])]

/-- The success mapping after translating `dexW` on top of `csPre`: the
old `A.class` entry is kept, the new same-named class is dropped. -/
def csPost : AList Bytes := [("A.class", [7]), ("C.class", [2])]

/-- The key sequence of a `translate` result (success keys then error
keys), used to observe that the result depends on the decoder. -/
def resultKeys : Except String (AList Bytes × AList String) → List String
  | Except.error _ => []
  | Except.ok (cs, es) => keys cs ++ keys es

end ConcreteEnvironments

section Helpers

variable {α β : Type}

theorem hasKey_nil (k : String) : hasKey ([] : AList α) k = false := rfl

theorem hasKey_cons (a : String) (v : α) (t : AList α) (k : String) :
    hasKey ((a, v) :: t) k = (a == k || hasKey t k) := by
  simp [hasKey, List.any_cons]

theorem hasKey_append (l₁ l₂ : AList α) (k : String) :
    hasKey (l₁ ++ l₂) k = (hasKey l₁ k || hasKey l₂ k) := by
  simp [hasKey, List.any_append]

theorem getVal_append_left (l₁ l₂ : AList α) (k : String)
    (h : hasKey l₁ k = true) : getVal (l₁ ++ l₂) k = getVal l₁ k := by
  induction l₁ with
  | nil => simp [hasKey] at h
  | cons p t ih =>
    obtain ⟨a, v⟩ := p
    rw [hasKey_cons] at h
    by_cases hak : (a == k) = true
    · simp [getVal, hak]
    · simp only [hak, Bool.false_or] at h
      simp [getVal, hak, ih h]

theorem hasKey_true_of_mem_keys {m : AList α} {k : String}
    (h : k ∈ keys m) : hasKey m k = true := by
  induction m with
  | nil => simp [keys] at h
  | cons p t ih =>
    obtain ⟨a, v⟩ := p
    simp only [keys, List.map_cons, List.mem_cons] at h
    rw [hasKey_cons]
    rcases h with h | h
    · simp [h]
    · simp [ih h]

theorem mem_keys_of_hasKey {m : AList α} {k : String}
    (h : hasKey m k = true) : k ∈ keys m := by
  induction m with
  | nil => simp [hasKey] at h
  | cons p t ih =>
    obtain ⟨a, v⟩ := p
    rw [hasKey_cons] at h
    simp only [keys, List.map_cons, List.mem_cons]
    rcases Bool.or_eq_true_iff.mp h with h | h
    · exact Or.inl (eq_of_beq h).symm
    · exact Or.inr (ih h)

end Helpers

section FrameLemma

/-- Backbone of the loop analysis: processing any class list only
appends to the two mappings; the appended keys follow dex declaration
order; no appended key collides with a pre-existing key of either
mapping; and the two appended key sets are mutually disjoint. -/
theorem processAll_frame (env : Env) (opts : Options) :
    ∀ (cs : List ClassDef) (classes : AList Bytes) (errors : AList String),
    ∃ nc ne,
      processAll env opts cs (classes, errors) = (classes ++ nc, errors ++ ne) ∧
      List.Sublist (keys nc) (cs.map (decodedName env)) ∧
      List.Sublist (keys ne) (cs.map (decodedName env)) ∧
      (∀ k, (hasKey classes k || hasKey errors k) = true →
        hasKey nc k = false ∧ hasKey ne k = false) ∧
      (∀ k, hasKey nc k = true → hasKey ne k = false) := by
  intro cs
  induction cs with
  | nil =>
    intro classes errors
    refine ⟨[], [], by simp [processAll], List.nil_sublist _, List.nil_sublist _,
      fun k _ => ⟨rfl, rfl⟩, fun k h => ?_⟩
    simp [hasKey] at h
  | cons c rest ih =>
    intro classes errors
    by_cases hdup :
        (hasKey classes (decodedName env c) || hasKey errors (decodedName env c)) = true
    · have hstep : translateStep env opts (classes, errors) c = (classes, errors) := by
        simp [translateStep, hdup]
      obtain ⟨nc, ne, heq, hsc, hse, hfresh, hdisj⟩ := ih classes errors
      refine ⟨nc, ne, ?_, hsc.cons _, hse.cons _, hfresh, hdisj⟩
      simp only [processAll, hstep, heq]
    · have hboth := Bool.or_eq_false_iff.mp (Bool.eq_false_iff.mpr hdup)
      obtain ⟨hc, he⟩ := hboth
      cases henv : env.toClassFile c opts with
      | ok d =>
        have hstep : translateStep env opts (classes, errors) c =
            (classes ++ [(decodedName env c, d)], errors) := by
          simp [translateStep, hc, he, henv]
        obtain ⟨nc', ne', heq, hsc, hse, hfresh, hdisj⟩ :=
          ih (classes ++ [(decodedName env c, d)]) errors
        refine ⟨(decodedName env c, d) :: nc', ne', ?_, ?_, hse.cons _, ?_, ?_⟩
        · simp only [processAll, hstep, heq, List.append_assoc, List.singleton_append]
        · simpa [keys] using hsc.cons₂ (decodedName env c)
        · intro k hk
          have hk' : (hasKey (classes ++ [(decodedName env c, d)]) k || hasKey errors k)
              = true := by
            rw [hasKey_append]
            rcases Bool.or_eq_true_iff.mp hk with h | h
            · simp [h]
            · simp [h]
          obtain ⟨h1, h2⟩ := hfresh k hk'
          refine ⟨?_, h2⟩
          rw [hasKey_cons, h1, Bool.or_false]
          apply beq_eq_false_iff_ne.mpr
          intro hnk
          rw [hnk] at hc he
          rw [hc, he] at hk
          exact Bool.false_ne_true hk
        · intro k hk
          rw [hasKey_cons] at hk
          rcases Bool.or_eq_true_iff.mp hk with h | h
          · have hkeq : decodedName env c = k := eq_of_beq h
            have hself : (hasKey (classes ++ [(decodedName env c, d)]) k || hasKey errors k)
                = true := by
              rw [hasKey_append, hasKey_cons, ← hkeq]
              simp
            exact (hfresh k hself).2
          · exact hdisj k h
      | error e =>
        have hstep : translateStep env opts (classes, errors) c =
            (classes, errors ++ [(decodedName env c, e)]) := by
          simp [translateStep, hc, he, henv]
        obtain ⟨nc', ne', heq, hsc, hse, hfresh, hdisj⟩ :=
          ih classes (errors ++ [(decodedName env c, e)])
        refine ⟨nc', (decodedName env c, e) :: ne', ?_, hsc.cons _, ?_, ?_, ?_⟩
        · simp only [processAll, hstep, heq, List.append_assoc, List.singleton_append]
        · simpa [keys] using hse.cons₂ (decodedName env c)
        · intro k hk
          have hk' : (hasKey classes k || hasKey (errors ++ [(decodedName env c, e)]) k)
              = true := by
            rw [hasKey_append]
            rcases Bool.or_eq_true_iff.mp hk with h | h
            · simp [h]
            · simp [h]
          obtain ⟨h1, h2⟩ := hfresh k hk'
          refine ⟨h1, ?_⟩
          rw [hasKey_cons, h2, Bool.or_false]
          apply beq_eq_false_iff_ne.mpr
          intro hnk
          rw [hnk] at hc he
          rw [hc, he] at hk
          exact Bool.false_ne_true hk
        · intro k hk
          rw [hasKey_cons]
          have hne' : hasKey ne' k = false := hdisj k hk
          rw [hne', Bool.or_false]
          apply beq_eq_false_iff_ne.mpr
          intro hnk
          have hself : (hasKey classes k || hasKey (errors ++ [(decodedName env c, e)]) k)
              = true := by
            rw [hasKey_append, hasKey_cons, ← hnk]
            simp
          rw [(hfresh k hself).1] at hk
          exact Bool.false_ne_true hk

end FrameLemma

section StructureLemma

/-- When the decoded class names are distinct and none is already
recorded, the loop appends exactly the successful entries to the success
mapping and exactly the failed entries to the error mapping. -/
theorem processAll_split (env : Env) (opts : Options) :
    ∀ (cs : List ClassDef) (classes : AList Bytes) (errors : AList String),
    List.Nodup (cs.map (decodedName env)) →
    (∀ c ∈ cs, hasKey classes (decodedName env c) = false ∧
      hasKey errors (decodedName env c) = false) →
    processAll env opts cs (classes, errors) =
      (classes ++ successEntries env opts cs, errors ++ errorEntries env opts cs) := by
  intro cs
  induction cs with
  | nil =>
    intro classes errors _ _
    simp [processAll, successEntries, errorEntries]
  | cons c rest ih =>
    intro classes errors hnodup hfresh
    rw [List.map_cons, List.nodup_cons] at hnodup
    obtain ⟨hnotin, hnodup'⟩ := hnodup
    obtain ⟨hc, he⟩ := hfresh c (List.mem_cons_self c rest)
    cases henv : env.toClassFile c opts with
    | ok d =>
      have hstep : translateStep env opts (classes, errors) c =
          (classes ++ [(decodedName env c, d)], errors) := by
        simp [translateStep, hc, he, henv]
      have hfresh' : ∀ c' ∈ rest,
          hasKey (classes ++ [(decodedName env c, d)]) (decodedName env c') = false ∧
          hasKey errors (decodedName env c') = false := by
        intro c' hc'
        obtain ⟨h1, h2⟩ := hfresh c' (List.mem_cons_of_mem c hc')
        refine ⟨?_, h2⟩
        rw [hasKey_append, h1, Bool.false_or, hasKey_cons, hasKey_nil, Bool.or_false]
        apply beq_eq_false_iff_ne.mpr
        intro hnk
        exact hnotin (hnk ▸ List.mem_map_of_mem (decodedName env) hc')
      have hrec := ih (classes ++ [(decodedName env c, d)]) errors hnodup' hfresh'
      simp only [processAll, hstep, hrec, successEntries, errorEntries,
        List.filterMap_cons, henv, List.append_assoc, List.singleton_append]
    | error e =>
      have hstep : translateStep env opts (classes, errors) c =
          (classes, errors ++ [(decodedName env c, e)]) := by
        simp [translateStep, hc, he, henv]
      have hfresh' : ∀ c' ∈ rest,
          hasKey classes (decodedName env c') = false ∧
          hasKey (errors ++ [(decodedName env c, e)]) (decodedName env c') = false := by
        intro c' hc'
        obtain ⟨h1, h2⟩ := hfresh c' (List.mem_cons_of_mem c hc')
        refine ⟨h1, ?_⟩
        rw [hasKey_append, h2, Bool.false_or, hasKey_cons, hasKey_nil, Bool.or_false]
        apply beq_eq_false_iff_ne.mpr
        intro hnk
        exact hnotin (hnk ▸ List.mem_map_of_mem (decodedName env) hc')
      have hrec := ih classes (errors ++ [(decodedName env c, e)]) hnodup' hfresh'
      simp only [processAll, hstep, hrec, successEntries, errorEntries,
        List.filterMap_cons, henv, List.append_assoc, List.singleton_append]

/-- Every class lands in exactly one of the two appended entry lists. -/
theorem successEntries_add_errorEntries_length (env : Env) (opts : Options) :
    ∀ cs : List ClassDef,
    (successEntries env opts cs).length + (errorEntries env opts cs).length = cs.length := by
  intro cs
  induction cs with
  | nil => rfl
  | cons c rest ih =>
    cases henv : env.toClassFile c opts with
    | ok d =>
      simp only [successEntries, errorEntries, List.filterMap_cons, henv,
        List.length_cons] at *
      omega
    | error e =>
      simp only [successEntries, errorEntries, List.filterMap_cons, henv,
        List.length_cons] at *
      omega

/-- Unfolding of the appended error entries over a class list head. -/
theorem errorEntries_cons (env : Env) (opts : Options) (c : ClassDef)
    (rest : List ClassDef) :
    errorEntries env opts (c :: rest) =
      (match env.toClassFile c opts with
        | Except.ok _ => errorEntries env opts rest
        | Except.error e => (decodedName env c, e) :: errorEntries env opts rest) := by
  cases henv : env.toClassFile c opts <;>
    simp [errorEntries, List.filterMap_cons, henv]

/-- Unfolding of the appended success entries over a class list head. -/
theorem successEntries_cons (env : Env) (opts : Options) (c : ClassDef)
    (rest : List ClassDef) :
    successEntries env opts (c :: rest) =
      (match env.toClassFile c opts with
        | Except.ok d => (decodedName env c, d) :: successEntries env opts rest
        | Except.error _ => successEntries env opts rest) := by
  cases henv : env.toClassFile c opts <;>
    simp [successEntries, List.filterMap_cons, henv]

/-- The number of failed entries is the number of classes whose
translation fails. -/
theorem errorEntries_length_eq_filter (env : Env) (opts : Options) :
    ∀ cs : List ClassDef,
    (errorEntries env opts cs).length =
      (cs.filter (fun c => isErrorB (env.toClassFile c opts))).length := by
  intro cs
  induction cs with
  | nil => rfl
  | cons c rest ih =>
    cases henv : env.toClassFile c opts with
    | ok d => simp [errorEntries_cons, List.filter_cons, henv, isErrorB, ih]
    | error e => simp [errorEntries_cons, List.filter_cons, henv, isErrorB, ih]

/-- Under distinct decoded names, a failed class's detail is found in the
appended error entries under its decoded name. -/
theorem getVal_errorEntries (env : Env) (opts : Options) :
    ∀ cs : List ClassDef,
    List.Nodup (cs.map (decodedName env)) →
    ∀ c ∈ cs, ∀ msg, env.toClassFile c opts = Except.error msg →
    getVal (errorEntries env opts cs) (decodedName env c) = some msg := by
  intro cs
  induction cs with
  | nil =>
    intro _ c hc
    exact absurd hc (List.not_mem_nil c)
  | cons c0 rest ih =>
    intro hnodup c hc msg henv
    rw [List.map_cons, List.nodup_cons] at hnodup
    obtain ⟨hnotin, hnodup'⟩ := hnodup
    rcases List.mem_cons.mp hc with hceq | hcrest
    · subst hceq
      simp [errorEntries, List.filterMap_cons, henv, getVal]
    · cases henv0 : env.toClassFile c0 opts with
      | ok d =>
        simp only [errorEntries, List.filterMap_cons, henv0]
        exact ih hnodup' c hcrest msg henv
      | error e0 =>
        have hne : (decodedName env c0 == decodedName env c) = false := by
          apply beq_eq_false_iff_ne.mpr
          intro hnk
          exact hnotin (hnk ▸ List.mem_map_of_mem (decodedName env) hcrest)
        simp only [errorEntries, List.filterMap_cons, henv0, getVal, hne,
          Bool.false_eq_true, if_false]
        exact ih hnodup' c hcrest msg henv

/-- The loop consults the environment's decoder only on the name bytes
of the classes it processes: two environments with the same per-class
translator whose decoders agree on those names run the loop
identically. -/
theorem processAll_congr (env₁ env₂ : Env) (opts : Options)
    (htc : env₁.toClassFile = env₂.toClassFile) :
    ∀ (cs : List ClassDef) (acc : AList Bytes × AList String),
    (∀ c ∈ cs, env₁.decode c.name = env₂.decode c.name) →
    processAll env₁ opts cs acc = processAll env₂ opts cs acc := by
  intro cs
  induction cs with
  | nil => intro acc _; rfl
  | cons c rest ih =>
    intro acc hdec
    have hn : decodedName env₁ c = decodedName env₂ c := by
      rw [decodedName, decodedName, hdec c (List.mem_cons_self c rest)]
    have hstep : translateStep env₁ opts acc c = translateStep env₂ opts acc c := by
      simp only [translateStep, hn, htc]
    rw [processAll, processAll, hstep]
    exact ih _ (fun c' h => hdec c' (List.mem_cons_of_mem c h))

end StructureLemma

section Claims

/-- C1: a failure raised while translating a class (an error from
`toClassFile`) is caught inside `translate` — `translate` still returns
its mappings — and is recorded in the error mapping under the class's
decoded name with the failure detail, while every other class proceeds:
with one corrupted class among N valid ones (distinct decoded names),
exactly N classes end in the success mapping and 1 in the error mapping,
regardless of the corrupted class's position. -/
theorem translate_isolates_single_class_failure
    (env : Env) (opts : Options) (data : Bytes) (dex : DexFile)
    (cs : AList Bytes) (es : AList String)
    (hparse : env.parseDex data = Except.ok dex)
    (hnodup : List.Nodup (dex.classes.map (decodedName env)))
    (hone : (dex.classes.filter (fun c => isErrorB (env.toClassFile c opts))).length = 1)
    (hrun : translate env opts data [] [] = Except.ok (cs, es)) :
    cs.length = dex.classes.length - 1 ∧ es.length = 1 ∧
      ∀ c ∈ dex.classes, ∀ msg, env.toClassFile c opts = Except.error msg →
        getVal es (decodedName env c) = some msg := by
  rw [translate, hparse] at hrun
  have heq : processAll env opts dex.classes ([], []) = (cs, es) :=
    Except.ok.inj hrun
  rw [processAll_split env opts dex.classes [] [] hnodup (fun c _ => ⟨rfl, rfl⟩)] at heq
  have hcs : cs = successEntries env opts dex.classes := by
    have := congrArg Prod.fst heq
    simpa using this.symm
  have hes : es = errorEntries env opts dex.classes := by
    have := congrArg Prod.snd heq
    simpa using this.symm
  have hlenes : es.length = 1 := by
    rw [hes, errorEntries_length_eq_filter, hone]
  refine ⟨?_, hlenes, ?_⟩
  · have htot := successEntries_add_errorEntries_length env opts dex.classes
    rw [← hcs, ← hes] at htot
    omega
  · intro c hc msg henv
    rw [hes]
    exact getVal_errorEntries env opts dex.classes hnodup c hc msg henv

/-- C1 witness: in the concrete environment `envW`, the three-class dex
`dexW` has one corrupted class (`B`, in the middle); the fresh run
yields two successes and one failure, recorded under `B.class`. -/
theorem translate_isolates_single_class_failure_check :
    csW.length = dexW.classes.length - 1 ∧ esW.length = 1 ∧
      getVal esW (decodedName envW ⟨[66], [9]⟩) = some "corrupt class" := by
  have h := translate_isolates_single_class_failure envW Options.PRETTY [0] dexW csW esW
    rfl (by decide) (by decide) rfl
  exact ⟨h.1, h.2.1, h.2.2 ⟨[66], [9]⟩ (by decide) "corrupt class" rfl⟩

/-- C2: no class name is ever a key of both the success mapping and the
failure mapping: each iteration of the per-class loop preserves
disjointness of the two key sets, and a whole call to `translate` maps
disjoint input mappings to disjoint output mappings (every call site
starts from empty, hence disjoint, mappings). -/
theorem translate_success_error_disjoint :
    (∀ (env : Env) (opts : Options) (cls : ClassDef)
        (classes : AList Bytes) (errors : AList String),
        disjointKeys classes errors →
        disjointKeys (translateStep env opts (classes, errors) cls).1
          (translateStep env opts (classes, errors) cls).2) ∧
    (∀ (env : Env) (opts : Options) (data : Bytes)
        (classes : AList Bytes) (errors : AList String)
        (cs : AList Bytes) (es : AList String),
        disjointKeys classes errors →
        translate env opts data classes errors = Except.ok (cs, es) →
        disjointKeys cs es) := by
  constructor
  · intro env opts cls classes errors hd
    by_cases hdup :
        (hasKey classes (decodedName env cls) || hasKey errors (decodedName env cls)) = true
    · simpa [translateStep, hdup] using hd
    · have hboth := Bool.or_eq_false_iff.mp (Bool.eq_false_iff.mpr hdup)
      obtain ⟨hc, he⟩ := hboth
      cases henv : env.toClassFile cls opts with
      | ok d =>
        simp only [translateStep, hc, he, henv, Bool.or_self, Bool.false_eq_true,
          if_false, disjointKeys]
        intro k hk
        rw [hasKey_append, hasKey_cons, hasKey_nil, Bool.or_false] at hk
        rcases Bool.or_eq_true_iff.mp hk with h | h
        · exact hd k h
        · exact (eq_of_beq h) ▸ he
      | error e =>
        simp only [translateStep, hc, he, henv, Bool.or_self, Bool.false_eq_true,
          if_false, disjointKeys]
        intro k hk
        rw [hasKey_append, hasKey_cons, hasKey_nil, Bool.or_false, hd k hk,
          Bool.false_or]
        apply beq_eq_false_iff_ne.mpr
        intro hnk
        rw [hnk] at hc
        rw [hc] at hk
        exact Bool.false_ne_true hk
  · intro env opts data classes errors cs es hd hrun
    rw [translate] at hrun
    cases hparse : env.parseDex data with
    | error e => rw [hparse] at hrun; cases hrun
    | ok dex =>
      rw [hparse] at hrun
      have heq : processAll env opts dex.classes (classes, errors) = (cs, es) :=
        Except.ok.inj hrun
      obtain ⟨nc, ne, hfr, _, _, hfresh, hdisj⟩ :=
        processAll_frame env opts dex.classes classes errors
      rw [hfr] at heq
      have hcs : cs = classes ++ nc := (congrArg Prod.fst heq).symm
      have hes : es = errors ++ ne := (congrArg Prod.snd heq).symm
      rw [hcs, hes]
      intro k hk
      rw [hasKey_append] at hk ⊢
      rcases Bool.or_eq_true_iff.mp hk with h | h
      · have hne : hasKey ne k = false := (hfresh k (by rw [h]; simp)).2
        rw [hd k h, hne]
        rfl
      · have hne : hasKey ne k = false := hdisj k h
        have herr : hasKey errors k = false := by
          cases herrc : hasKey errors k with
          | false => rfl
          | true =>
            have := (hfresh k (by rw [herrc]; simp)).1
            rw [this] at h
            cases h
        rw [herr, hne]
        rfl

/-- C2 witness: starting from the empty (hence disjoint) mappings, the
concrete fresh run of `envW` produces mappings in which the successful
key `A.class` is absent from the error mapping. -/
theorem translate_success_error_disjoint_check :
    hasKey esW "A.class" = false := by
  have h := translate_success_error_disjoint.2 envW Options.PRETTY [0] [] [] csW esW
    (fun k hk => by simp [hasKey] at hk) rfl
  exact h "A.class" (by decide)

/-- C4: when a class's decoded name equals a name already recorded, the
loop iteration drops the later occurrence and leaves both mappings
unchanged; consequently, across a whole `translate` call (including
merged images sharing the same mappings), every pre-existing entry keeps
its original value — first-wins, never overwritten. -/
theorem duplicate_name_first_wins :
    (∀ (env : Env) (opts : Options) (cls : ClassDef)
        (classes : AList Bytes) (errors : AList String),
        (hasKey classes (decodedName env cls) ||
          hasKey errors (decodedName env cls)) = true →
        translateStep env opts (classes, errors) cls = (classes, errors)) ∧
    (∀ (env : Env) (opts : Options) (data : Bytes)
        (classes : AList Bytes) (errors : AList String)
        (cs : AList Bytes) (es : AList String),
        translate env opts data classes errors = Except.ok (cs, es) →
        (∀ k, hasKey classes k = true → getVal cs k = getVal classes k) ∧
        (∀ k, hasKey errors k = true → getVal es k = getVal errors k)) := by
  constructor
  · intro env opts cls classes errors hdup
    simp [translateStep, hdup]
  · intro env opts data classes errors cs es hrun
    rw [translate] at hrun
    cases hparse : env.parseDex data with
    | error e => rw [hparse] at hrun; cases hrun
    | ok dex =>
      rw [hparse] at hrun
      have heq : processAll env opts dex.classes (classes, errors) = (cs, es) :=
        Except.ok.inj hrun
      obtain ⟨nc, ne, hfr, _, _, _, _⟩ :=
        processAll_frame env opts dex.classes classes errors
      rw [hfr] at heq
      have hcs : cs = classes ++ nc := (congrArg Prod.fst heq).symm
      have hes : es = errors ++ ne := (congrArg Prod.snd heq).symm
      constructor
      · intro k hk
        rw [hcs]
        exact getVal_append_left classes nc k hk
      · intro k hk
        rw [hes]
        exact getVal_append_left errors ne k hk

/-- C4 witness: a later class named `A.class` is dropped by the loop
iteration, and after translating `dexW` on top of a mapping already
holding `A.class ↦ [7]`, the old value is still returned for that key. -/
theorem duplicate_name_first_wins_check :
    translateStep envW Options.PRETTY (csPre, []) ⟨[65], [3]⟩ = (csPre, []) ∧
    getVal csPost "A.class" = getVal csPre "A.class" := by
  constructor
  · exact duplicate_name_first_wins.1 envW Options.PRETTY ⟨[65], [3]⟩ csPre []
      (by decide)
  · exact (duplicate_name_first_wins.2 envW Options.PRETTY [0] csPre [] csPost esW
      rfl).1 "A.class" (by decide)

/-- C5: the configuration selector recognizes exactly two values — with
the fast flag it selects `options.NONE`, which skips the optimization
pipeline, and without it it defaults to `options.PRETTY`, which runs
it. -/
theorem config_selector_two_values :
    selectOpts true = Options.NONE ∧
    selectOpts false = Options.PRETTY ∧
    runsOptimizationPipeline Options.NONE = false ∧
    runsOptimizationPipeline Options.PRETTY = true ∧
    runsOptimizationPipeline (selectOpts false) = true ∧
    ∀ o : Options, o = Options.NONE ∨ o = Options.PRETTY := by
  refine ⟨rfl, rfl, rfl, rfl, rfl, ?_⟩
  intro o
  cases o
  · exact Or.inl rfl
  · exact Or.inr rfl

/-- C6: translation is deterministic — the embedding of the pipeline is
a pure function of the input bytes and configuration, so a second run of
`translate` on the same input returns the very same mappings, the keys
of both mappings follow the stable dex declaration order, and the entry
sequence `writeToJar` emits is the same function of the success mapping,
hence byte-identical across re-runs. -/
theorem translate_deterministic_stable_order
    (env : Env) (opts : Options) (data : Bytes) (dex : DexFile)
    (cs : AList Bytes) (es : AList String)
    (hparse : env.parseDex data = Except.ok dex)
    (hrun : translate env opts data [] [] = Except.ok (cs, es)) :
    translate env opts data [] [] = Except.ok (cs, es) ∧
    writeToJarEntries cs = writeToJarEntries cs ∧
    List.Sublist (keys cs) (dex.classes.map (decodedName env)) ∧
    List.Sublist (keys es) (dex.classes.map (decodedName env)) := by
  refine ⟨hrun, rfl, ?_, ?_⟩ <;>
  · rw [translate, hparse] at hrun
    have heq : processAll env opts dex.classes ([], []) = (cs, es) :=
      Except.ok.inj hrun
    obtain ⟨nc, ne, hfr, hsc, hse, _, _⟩ :=
      processAll_frame env opts dex.classes [] []
    rw [hfr] at heq
    have hcs : cs = nc := by simpa using (congrArg Prod.fst heq).symm
    have hes : es = ne := by simpa using (congrArg Prod.snd heq).symm
    first
    | exact hcs ▸ hsc
    | exact hes ▸ hse

/-- C6 witness: the concrete fresh run of `envW` reproduces its result
and its key order follows the declaration order of `dexW`. -/
theorem translate_deterministic_stable_order_check :
    translate envW Options.PRETTY [0] [] [] = Except.ok (csW, esW) ∧
    writeToJarEntries csW = writeToJarEntries csW ∧
    List.Sublist (keys csW) (dexW.classes.map (decodedName envW)) ∧
    List.Sublist (keys esW) (dexW.classes.map (decodedName envW)) :=
  translate_deterministic_stable_order envW Options.PRETTY [0] dexW csW esW rfl rfl

/-- C8: every key of the success mapping and of the failure mapping
produced by a fresh `translate` run is the class's decoded name — the
decoder applied to the class's name bytes — suffixed with `.class`. -/
theorem translate_keys_are_decoded_class_names
    (env : Env) (opts : Options) (data : Bytes) (dex : DexFile)
    (cs : AList Bytes) (es : AList String)
    (hparse : env.parseDex data = Except.ok dex)
    (hrun : translate env opts data [] [] = Except.ok (cs, es)) :
    (∀ k ∈ keys cs, k ∈ dex.classes.map (fun c => env.decode c.name ++ ".class")) ∧
    (∀ k ∈ keys es, k ∈ dex.classes.map (fun c => env.decode c.name ++ ".class")) := by
  rw [translate, hparse] at hrun
  have heq : processAll env opts dex.classes ([], []) = (cs, es) :=
    Except.ok.inj hrun
  obtain ⟨nc, ne, hfr, hsc, hse, _, _⟩ :=
    processAll_frame env opts dex.classes [] []
  rw [hfr] at heq
  have hcs : cs = nc := by simpa using (congrArg Prod.fst heq).symm
  have hes : es = ne := by simpa using (congrArg Prod.snd heq).symm
  constructor
  · intro k hk
    have : k ∈ dex.classes.map (decodedName env) :=
      hsc.subset (hcs ▸ hk)
    simpa [decodedName] using this
  · intro k hk
    have : k ∈ dex.classes.map (decodedName env) :=
      hse.subset (hes ▸ hk)
    simpa [decodedName] using this

/-- C8 witness: the key `A.class` of the concrete fresh run is the
decoded name of a class of `dexW`. -/
theorem translate_keys_are_decoded_class_names_check :
    "A.class" ∈ dexW.classes.map (fun c => envW.decode c.name ++ ".class") :=
  (translate_keys_are_decoded_class_names envW Options.PRETTY [0] dexW csW esW
    rfl rfl).1 "A.class" (by decide)

/-- C9: the duplicate-name check tests the union of both mappings — a
class whose decoded name is already in the error mapping is skipped by
the loop iteration, and across a whole `translate` call such a name
keeps its original error entry and never enters the success mapping:
a class that failed in an earlier image is never retried. -/
theorem duplicate_check_spans_error_mapping :
    (∀ (env : Env) (opts : Options) (cls : ClassDef)
        (classes : AList Bytes) (errors : AList String),
        hasKey errors (decodedName env cls) = true →
        translateStep env opts (classes, errors) cls = (classes, errors)) ∧
    (∀ (env : Env) (opts : Options) (data : Bytes)
        (classes : AList Bytes) (errors : AList String)
        (cs : AList Bytes) (es : AList String) (k : String),
        translate env opts data classes errors = Except.ok (cs, es) →
        hasKey errors k = true →
        getVal es k = getVal errors k ∧ hasKey cs k = hasKey classes k) := by
  constructor
  · intro env opts cls classes errors he
    simp [translateStep, he]
  · intro env opts data classes errors cs es k hrun hk
    rw [translate] at hrun
    cases hparse : env.parseDex data with
    | error e => rw [hparse] at hrun; cases hrun
    | ok dex =>
      rw [hparse] at hrun
      have heq : processAll env opts dex.classes (classes, errors) = (cs, es) :=
        Except.ok.inj hrun
      obtain ⟨nc, ne, hfr, _, _, hfresh, _⟩ :=
        processAll_frame env opts dex.classes classes errors
      rw [hfr] at heq
      have hcs : cs = classes ++ nc := (congrArg Prod.fst heq).symm
      have hes : es = errors ++ ne := (congrArg Prod.snd heq).symm
      have hnc : hasKey nc k = false := (hfresh k (by rw [hk]; simp)).1
      constructor
      · rw [hes]
        exact getVal_append_left errors ne k hk
      · rw [hcs, hasKey_append, hnc, Bool.or_false]

/-- C9 witness: a class decoding to `B.class`, a name already failed in
`esW`, is skipped by the loop iteration; after a further `translate`
call over `dexW` starting from `([], esW)`, the error entry for
`B.class` is unchanged and `B.class` is still absent from the success
mapping. -/
theorem duplicate_check_spans_error_mapping_check :
    translateStep envW Options.PRETTY ([], esW) ⟨[66], [3]⟩ = ([], esW) ∧
    getVal esW "B.class" = getVal esW "B.class" ∧
    hasKey csW "B.class" = hasKey ([] : AList Bytes) "B.class" := by
  refine ⟨?_, ?_, ?_⟩
  · exact duplicate_check_spans_error_mapping.1 envW Options.PRETTY ⟨[66], [3]⟩ [] esW
      (by decide)
  · exact (duplicate_check_spans_error_mapping.2 envW Options.PRETTY [0] [] esW csW esW
      "B.class" rfl (by decide)).1
  · exact (duplicate_check_spans_error_mapping.2 envW Options.PRETTY [0] [] esW csW esW
      "B.class" rfl (by decide)).2

/-- C10: `translate` only appends to the mappings it is given — every
pre-existing key is still present afterwards, the output mappings extend
the inputs as lists, and no key is removed; when no mappings are passed
in, fresh empty ordered mappings are created. -/
theorem translate_append_only_frame :
    (∀ (env : Env) (opts : Options) (data : Bytes)
        (classes : AList Bytes) (errors : AList String)
        (cs : AList Bytes) (es : AList String),
        translate env opts data classes errors = Except.ok (cs, es) →
        (∃ nc, cs = classes ++ nc) ∧ (∃ ne, es = errors ++ ne) ∧
        (∀ k, hasKey classes k = true → hasKey cs k = true) ∧
        (∀ k, hasKey errors k = true → hasKey es k = true)) ∧
    (∀ (env : Env) (opts : Options) (data : Bytes),
        translateFresh env opts data = translate env opts data [] []) := by
  constructor
  · intro env opts data classes errors cs es hrun
    rw [translate] at hrun
    cases hparse : env.parseDex data with
    | error e => rw [hparse] at hrun; cases hrun
    | ok dex =>
      rw [hparse] at hrun
      have heq : processAll env opts dex.classes (classes, errors) = (cs, es) :=
        Except.ok.inj hrun
      obtain ⟨nc, ne, hfr, _, _, _, _⟩ :=
        processAll_frame env opts dex.classes classes errors
      rw [hfr] at heq
      have hcs : cs = classes ++ nc := (congrArg Prod.fst heq).symm
      have hes : es = errors ++ ne := (congrArg Prod.snd heq).symm
      refine ⟨⟨nc, hcs⟩, ⟨ne, hes⟩, ?_, ?_⟩
      · intro k hk
        rw [hcs, hasKey_append, hk, Bool.true_or]
      · intro k hk
        rw [hes, hasKey_append, hk, Bool.true_or]
  · intro env opts data
    rfl

/-- C10 witness: after translating `dexW` on top of `(csPre, [])`, the
pre-existing key `A.class` is still present, and the defaulted entry
point equals `translate` on fresh empty mappings at a concrete input. -/
theorem translate_append_only_frame_check :
    hasKey csPost "A.class" = true ∧
    translateFresh envW Options.PRETTY [0] = translate envW Options.PRETTY [0] [] [] := by
  constructor
  · exact (translate_append_only_frame.1 envW Options.PRETTY [0] csPre [] csPost esW
      rfl).2.2.1 "A.class" (by decide)
  · exact translate_append_only_frame.2 envW Options.PRETTY [0]

/-- C3 counterexample: with multiple input images, a structural parse
failure in one image is not confined to that image — in the concrete
environment `envW`, image `[9]` fails at the header level and the whole
per-image loop of `main` aborts with that error, producing no output
mappings at all, even though the sibling image `[1]` translates to two
successes and one per-class error when processed alone. -/
theorem image_failure_aborts_run_cex :
    translateAll envW Options.PRETTY [[9], [1]] [] [] = Except.error "bad magic" ∧
    translateAll envW Options.PRETTY [[1]] [] [] = Except.ok (csW, esW) :=
  ⟨rfl, rfl⟩

/-- C3 amended: an image-level structural failure propagates out of
`translate` uncaught, so in `main`'s per-image loop the run aborts at
the first failing image with its parse error: images after it are never
translated and nothing is written (images before it keep their already
accumulated entries only inside the aborted run's mappings). -/
theorem image_failure_aborts_remaining_images
    (env : Env) (opts : Options) (pre : List Bytes) (bad : Bytes)
    (rest : List Bytes) (classes : AList Bytes) (errors : AList String)
    (msg : String)
    (hpre : ∀ x ∈ pre, isErrorB (env.parseDex x) = false)
    (hbad : env.parseDex bad = Except.error msg) :
    translateAll env opts (pre ++ bad :: rest) classes errors = Except.error msg := by
  induction pre generalizing classes errors with
  | nil =>
    simp only [List.nil_append, translateAll, translate, hbad]
  | cons p t ih =>
    have hp := hpre p (List.mem_cons_self p t)
    cases hparse : env.parseDex p with
    | error e =>
      rw [hparse] at hp
      simp [isErrorB] at hp
    | ok dex =>
      simp only [List.cons_append, translateAll, translate, hparse]
      exact ih _ _ (fun x hx => hpre x (List.mem_cons_of_mem p hx))

/-- C3 amended witness: with a well-formed image before and another
after the malformed image `[9]`, the whole run returns the image-level
parse error, so the later image is never translated. -/
theorem image_failure_aborts_remaining_images_check :
    translateAll envW Options.PRETTY [[1], [9], [2]] [] [] =
      Except.error "bad magic" :=
  image_failure_aborts_remaining_images envW Options.PRETTY [[1]] [9] [[2]] [] []
    "bad magic" (by decide) rfl

/-- C7 counterexample: the decoder is not used only while parsing the
string pool — the per-class loop of `translate` invokes it on each
class's name bytes.  Two environments with identical image parsers and
identical per-class translators, differing only in the decoder, produce
different results on the same input, which is impossible if `translate`
never called the decoder. -/
theorem decode_used_in_translate_cex :
    envW.parseDex = envConstDecode.parseDex ∧
    envW.toClassFile = envConstDecode.toClassFile ∧
    resultKeys (translate envW Options.PRETTY [0] [] []) ≠
      resultKeys (translate envConstDecode Options.PRETTY [0] [] []) :=
  ⟨rfl, rfl, by decide⟩

/-- C7 amended: besides its use while parsing the string pool, `decode`
is invoked by `translate`'s per-class loop, on exactly the name bytes of
the processed classes: environments sharing the image parser and the
per-class translator whose decoders agree on the name bytes of every
class of the parsed image yield identical `translate` results. -/
theorem translate_decodes_exactly_class_names
    (env₁ env₂ : Env) (opts : Options) (data : Bytes) (dex : DexFile)
    (classes : AList Bytes) (errors : AList String)
    (hp1 : env₁.parseDex data = Except.ok dex)
    (hp2 : env₂.parseDex data = Except.ok dex)
    (htc : env₁.toClassFile = env₂.toClassFile)
    (hdec : ∀ c ∈ dex.classes, env₁.decode c.name = env₂.decode c.name) :
    translate env₁ opts data classes errors =
      translate env₂ opts data classes errors := by
  rw [translate, translate, hp1, hp2]
  exact congrArg Except.ok (processAll_congr env₁ env₂ opts htc dex.classes
    (classes, errors) hdec)

/-- C7 amended witness: a decoder differing from `decodeW` only off the
class-name byte strings of `dexW` leaves the concrete `translate` result
unchanged. -/
theorem translate_decodes_exactly_class_names_check :
    translate envW Options.PRETTY [0] [] [] =
      translate envAgreeOnNames Options.PRETTY [0] [] [] :=
  translate_decodes_exactly_class_names envW envAgreeOnNames Options.PRETTY [0] dexW
    [] [] rfl rfl rfl (by decide)

end Claims

end Enjarify
